import Mathlib

/-
Verification of the Slack chat-bot bridge (`src/app.py`) against its
natural-language specification.

The development shallowly embeds the program:
* `SlackStreamingCallbackHandler` becomes `HandlerState` with the pure step
  functions `onToken` (for `on_llm_new_token`) and `onEnd` (for `on_llm_end`);
  wall-clock times (`time.time()` floats) are modelled as rationals.
* A whole streaming session is `runSession` over a list of `TokenArrival`s;
  the calls made to the external `chat_update` operation are collected as a
  list of `Ev` events.
* `re.sub("<@.*>", "", text)` is embedded as the scanner `subAux`, which
  reproduces the regex engine's behaviour for this fixed pattern: at each
  position a match starts at a literal `<@`, `.` matches anything except a
  newline, `.*` is greedy (so the match extends to the last `>` before the
  next newline), and scanning resumes after the consumed match.
* `handle_mention` and the AWS Lambda `handler` are embedded with their
  external collaborators (Slack client, Momento history, LangChain chains)
  abstracted as function parameters in an `Env`.
-/

/-- One token arrival during streaming: the token text, the wall-clock time
observed by `on_llm_new_token` when it runs, and whether the external
`chat_update` call would succeed if it were attempted at this point
(`ok = false` models the edit call raising an error). -/
structure TokenArrival where
  tok : String
  now : ℚ
  ok : Bool
deriving DecidableEq, Repr

/-- A call made to the external `chat_update` operation for the target
message: an interval-gated attempt from `on_llm_new_token` (carrying the
exact text passed, and whether the call succeeded), or the unconditional
terminal call from `on_llm_end`. -/
inductive Ev where
  | attempt (text : String) (ok : Bool)
  | final (text : String)
deriving DecidableEq, Repr

/-- The mutable state of one `SlackStreamingCallbackHandler` as observed by a
single streaming session.  In the source, `message` and `last_send_time` are
class attributes: `message` starts as `""` and `last_send_time` is set to
`time.time()` once, when the class body is executed at module import; all
later assignments (`self.message += token`, `self.last_send_time = now`)
create instance attributes, and the class attributes are never reassigned, so
every fresh instance starts from `message = ""` and
`last_send_time = ` the module-import time. -/
structure HandlerState where
  message : String
  lastSendTime : ℚ
  interval : ℚ
  updateCount : ℕ
deriving DecidableEq, Repr

/-- `CHAT_UPDATE_INTERVAL_SEC = 1` from the source. -/
def CHAT_UPDATE_INTERVAL_SEC : ℚ := 1

/-- The trailing in-progress marker appended by `on_llm_new_token`
(`f"{self.message}\n\nTyping..."`). -/
def typingMarker : String := "\n\nTyping..."

/-- The state of a freshly constructed handler.  `classLastSendTime` is the
value of the class attribute `last_send_time`, i.e. the module-import time:
`__init__` sets only `channel`, `ts`, `interval` and `update_count`, so the
first reads of `last_send_time` see the class attribute. -/
def initState (classLastSendTime : ℚ) : HandlerState :=
  { message := ""
    lastSendTime := classLastSendTime
    interval := CHAT_UPDATE_INTERVAL_SEC
    updateCount := 0 }

/-- One `on_llm_new_token(token)` call.  The token is appended to `message`
first; then, if `now - last_send_time > interval`, `chat_update` is called
with `message + "\n\nTyping..."`.  If that external call succeeds, the lines
after it run: `last_send_time = now`, `update_count += 1`, and the interval
doubles when `update_count / 10 > interval`.  If the call raises
(`a.ok = false`), those lines are skipped (the token was already appended).
The backoff comparison `update_count / 10 > interval` is float division in
the source; for the integer values reachable here it orders exactly like the
rational division used below. -/
def onToken (st : HandlerState) (a : TokenArrival) : HandlerState × Option Ev :=
  if a.now - st.lastSendTime > st.interval then
    if a.ok then
      ({ message := st.message ++ a.tok
         lastSendTime := a.now
         interval :=
           if ((st.updateCount + 1 : ℕ) : ℚ) / 10 > st.interval then
             st.interval * 2
           else st.interval
         updateCount := st.updateCount + 1 },
        some (Ev.attempt (st.message ++ a.tok ++ typingMarker) true))
    else
      ({ st with message := st.message ++ a.tok },
        some (Ev.attempt (st.message ++ a.tok ++ typingMarker) false))
  else
    ({ st with message := st.message ++ a.tok }, none)

/-- One `on_llm_end(response)` call: a single unconditional `chat_update`
with exactly `message` (no marker); the handler state is not mutated. -/
def onEnd (st : HandlerState) : HandlerState × Ev :=
  (st, Ev.final st.message)

/-- Consume a whole token stream through `on_llm_new_token`, collecting the
`chat_update` calls in order.  The stream keeps being delivered after a
failed edit call: the LangChain callback dispatcher (outside this
repository's source) catches handler errors and continues, as the spec
states ("Edit-call failures during streaming: logged/ignored; ingestion
continues"). -/
def runSession : HandlerState → List TokenArrival → HandlerState × List Ev
  | st, [] => (st, [])
  | st, a :: rest =>
    ((runSession (onToken st a).1 rest).1,
      (onToken st a).2.toList ++ (runSession (onToken st a).1 rest).2)

/-- Concatenation of a trace's tokens in arrival order. -/
def concatTokens : List TokenArrival → String
  | [] => ""
  | a :: rest => a.tok ++ concatTokens rest

/-- All `chat_update` calls of one full session: a fresh handler (class
attribute `last_send_time = importTime`) consumes the trace, then
`on_llm_end` fires once. -/
def sessionEvents (importTime : ℚ) (trace : List TokenArrival) : List Ev :=
  (runSession (initState importTime) trace).2 ++
    [(onEnd (runSession (initState importTime) trace).1).2]

/-- Whether an event is the terminal `on_llm_end` publish. -/
def isFinalEv : Ev → Bool
  | Ev.final _ => true
  | Ev.attempt _ _ => false

/-- The texts passed to the interval-gated `chat_update` attempts, in order. -/
def attemptTexts (evs : List Ev) : List String :=
  evs.filterMap fun e =>
    match e with
    | Ev.attempt t _ => some t
    | Ev.final _ => none

/-- `b` is a later partial publish than `a`: both end in the in-progress
marker, and `b`'s underlying accumulated text extends `a`'s. -/
def extendsMarker (a b : String) : Prop :=
  ∃ base c, a = base ++ typingMarker ∧ b = (base ++ c) ++ typingMarker

/-- Index of the last `>` in a character list, if any. -/
def lastGtIdx? : List Char → Option ℕ
  | [] => none
  | c :: rest =>
    match lastGtIdx? rest with
    | some k => some (k + 1)
    | none => if c = '>' then some 0 else none

/-- The scanner implementing `re.sub("<@.*>", "", s)` for this fixed
pattern, with an explicit fuel argument to keep the recursion structural:
scanning left to right, a match must start with the literal `<@`; `.`
matches any character except a newline and `.*` is greedy, so a successful
match extends to the last `>` occurring before the next newline; when a
match is consumed, scanning resumes right after it, and a position with no
match contributes its character unchanged.  One fuel unit is spent per
consumed match or emitted character, so fuel `cs.length` always suffices
(`subScan_congr` below shows the result does not depend on the exact
amount). -/
def subScan : ℕ → List Char → List Char
  | 0, cs => cs
  | _ + 1, [] => []
  | _ + 1, [c] => [c]
  | fuel + 1, c1 :: c2 :: rest =>
    if c1 = '<' ∧ c2 = '@' then
      match lastGtIdx? (rest.takeWhile (fun c => c != '\n')) with
      | some k => subScan fuel (rest.drop (k + 1))
      | none => c1 :: subScan fuel (c2 :: rest)
    else c1 :: subScan fuel (c2 :: rest)

/-- The scanner run with enough fuel to finish. -/
def subAux (cs : List Char) : List Char := subScan cs.length cs

/-- `re.sub("<@.*>", "", s)` from `handle_mention`. -/
def stripMentions (s : String) : String :=
  String.mk (subAux s.data)

/-- Whether a character list starts with the two-character sequence `<@`. -/
def startsMention : List Char → Bool
  | c1 :: c2 :: _ => c1 == '<' && c2 == '@'
  | _ => false

/-- Index of the first occurrence of the two-character sequence `<@`. -/
def firstMentionIdx? : List Char → Option ℕ
  | [] => none
  | c :: rest =>
    if startsMention (c :: rest) then some 0
    else (firstMentionIdx? rest).map (· + 1)

/-- Removal of the maximal span from the first `<@` through the last `>` of
one newline-free line, leaving the line unchanged when no such span exists
(no `<@`, or no `>` at least two positions past it).  This is the closed
form that `subAux` computes on a single line. -/
def lineStrip (cs : List Char) : List Char :=
  match firstMentionIdx? cs, lastGtIdx? cs with
  | some i, some j => if i + 2 ≤ j then cs.take i ++ cs.drop (j + 1) else cs
  | some _, none => cs
  | none, _ => cs

/-- Modelled from the claim's words (for comparison with the source's
`stripMentions`): remove the single maximal substring starting at the first
occurrence of `<@` in the whole text and extending to the last `>`, with no
attention to line boundaries. -/
def claimStrip (s : String) : String :=
  match firstMentionIdx? s.data, lastGtIdx? s.data with
  | some i, some j =>
    if i + 2 ≤ j then String.mk (s.data.take i ++ s.data.drop (j + 1)) else s
  | some _, none => s
  | none, _ => s

/-- An inbound `app_mention` event: `thread_ts = some root` models the event
dict containing a `"thread_ts"` key. -/
structure SlackEvent where
  text : String
  ts : String
  thread_ts : Option String
  channel : String
deriving DecidableEq, Repr

/-- The Conversation Key computed in `handle_mention`:
`id_ts = event["ts"]`, overwritten with `event["thread_ts"]` when that key
is present. -/
def convKey (e : SlackEvent) : String :=
  match e.thread_ts with
  | some root => root
  | none => e.ts

/-- The external collaborators of one `handle_mention` turn, abstracted:
`importTime` is the module-import wall-clock time at which the class
attribute `last_send_time` was evaluated; `sayTs` is the `ts` returned by
the placeholder `say(...)` call; `tokenTrace` is the token stream produced
by the streaming `qa_llm` call; `rephrase` is the behaviour of
`rephrase_chain` (the history-aware retriever) on the string piped into it. -/
structure Env where
  importTime : ℚ
  sayTs : String
  tokenTrace : List TokenArrival
  rephrase : String → String

/-- The externally observable outcome of one `handle_mention` turn. -/
structure TurnResult where
  key : String
  query : String
  placeholderTs : String
  events : List Ev
  appended : List (String × String)
  aiMessage : String

/-- `handle_mention`: strip the mention markup from the text, derive the
history key, post the placeholder, stream the answer through the callback
handler, and append the (user, ai) pair.  `conversational_chain` is
`qa_chain | rephrase_chain`, so the value appended as the AI message is
`rephrase` applied to the qa chain's output; the qa chain's output (via
`StrOutputParser` on the streaming `qa_llm`) is the concatenation of the
streamed tokens. -/
def handleMention (env : Env) (e : SlackEvent) : TurnResult :=
  let message := stripMentions e.text
  let idTs := convKey e
  let qaAnswer := concatTokens env.tokenTrace
  let aiMessage := env.rephrase qaAnswer
  { key := idTs
    query := message
    placeholderTs := env.sayTs
    events := sessionEvents env.importTime env.tokenTrace
    appended := [("user", message), ("ai", aiMessage)]
    aiMessage := aiMessage }

/-- The side effects a processed (non-short-circuited) delivery may perform. -/
inductive Effect where
  | post (channel threadTs text : String)
  | update (channel ts text : String)
  | generate
  | historyLoad (key : String)
  | historyAppend (key role text : String)
deriving DecidableEq, Repr

/-- An AWS Lambda request as seen by `handler`: its header dict. -/
structure LambdaRequest where
  headers : List (String × String)
deriving DecidableEq, Repr

/-- The AWS Lambda `handler`: when the header dict contains
`"x-slack-retry-num"`, return `200` immediately, before the
`SlackRequestHandler` is even constructed; otherwise delegate to
`slack_handler.handle`, whose outcome (status and side effects) is the
abstract `dispatch`. -/
def handler (req : LambdaRequest) (dispatch : ℕ × List Effect) : ℕ × List Effect :=
  if req.headers.any (fun h => h.1 = "x-slack-retry-num") then (200, [])
  else dispatch

/-- The scanner's result does not depend on the amount of fuel, as long as
there is at least one unit per character of the input. -/
theorem subScan_congr : ∀ (f1 : ℕ), ∀ (f2 : ℕ) (cs : List Char),
    cs.length ≤ f1 → cs.length ≤ f2 → subScan f1 cs = subScan f2 cs := by
  intro f1
  induction f1 with
  | zero =>
    intro f2 cs h1 _
    have hcs : cs = [] := List.eq_nil_of_length_eq_zero (Nat.le_zero.mp h1)
    subst hcs
    cases f2 <;> rfl
  | succ f ih =>
    intro f2 cs h1 h2
    match cs, f2 with
    | [], f2 => cases f2 <;> rfl
    | [c], f2 =>
      match f2 with
      | 0 => simp at h2
      | g + 1 => rfl
    | c1 :: c2 :: rest, f2 =>
      match f2 with
      | 0 => simp at h2
      | g + 1 =>
        simp only [List.length_cons] at h1 h2
        simp only [subScan]
        by_cases hm : c1 = '<' ∧ c2 = '@'
        · simp only [if_pos hm]
          cases hgt : lastGtIdx? (rest.takeWhile (fun c => c != '\n')) with
          | some k =>
            show subScan f (rest.drop (k + 1)) = subScan g (rest.drop (k + 1))
            apply ih
            · calc (rest.drop (k + 1)).length ≤ rest.length := by
                    simp [List.length_drop]
                  _ ≤ f := by omega
            · calc (rest.drop (k + 1)).length ≤ rest.length := by
                    simp [List.length_drop]
                  _ ≤ g := by omega
          | none =>
            show c1 :: subScan f (c2 :: rest) = c1 :: subScan g (c2 :: rest)
            congr 1
            apply ih <;> simp <;> omega
        · simp only [if_neg hm]
          congr 1
          apply ih <;> simp <;> omega

/-- Unfolding `subAux` on the empty list. -/
theorem subAux_nil : subAux [] = [] := rfl

/-- Unfolding `subAux` on a one-character list. -/
theorem subAux_single (c : Char) : subAux [c] = [c] := rfl

/-- Unfolding `subAux` at a matching `<@` whose lookahead contains a `>`:
the whole match, up to that last `>`, is consumed. -/
theorem subAux_mention_some (rest : List Char) (k : ℕ)
    (h : lastGtIdx? (rest.takeWhile (fun c => c != '\n')) = some k) :
    subAux ('<' :: '@' :: rest) = subAux (rest.drop (k + 1)) := by
  show subScan (rest.length + 1 + 1) ('<' :: '@' :: rest) = _
  simp only [subScan, if_pos (And.intro rfl rfl), h]
  apply subScan_congr
  · calc (rest.drop (k + 1)).length ≤ rest.length := by simp [List.length_drop]
      _ ≤ rest.length + 1 := by omega
  · exact Nat.le_refl _

/-- Unfolding `subAux` at a `<@` with no `>` before the next newline: no
match starts here, the `<` is emitted and scanning resumes at the `@`. -/
theorem subAux_mention_none (rest : List Char)
    (h : lastGtIdx? (rest.takeWhile (fun c => c != '\n')) = none) :
    subAux ('<' :: '@' :: rest) = '<' :: subAux ('@' :: rest) := by
  show subScan (rest.length + 1 + 1) ('<' :: '@' :: rest) = _
  simp only [subScan, if_pos (And.intro rfl rfl), h]
  simp [subAux]

/-- Unfolding `subAux` at a position where no match can start. -/
theorem subAux_cons₂_ne (c1 c2 : Char) (rest : List Char)
    (h : ¬(c1 = '<' ∧ c2 = '@')) :
    subAux (c1 :: c2 :: rest) = c1 :: subAux (c2 :: rest) := by
  show subScan (rest.length + 1 + 1) (c1 :: c2 :: rest) = _
  simp only [subScan, if_neg h]
  simp [subAux]

/-- A character other than `<` is always emitted unchanged. -/
theorem subAux_cons_ne_lt (c : Char) (l : List Char) (h : c ≠ '<') :
    subAux (c :: l) = c :: subAux l := by
  match l with
  | [] => exact subAux_single c
  | c2 :: rest => exact subAux_cons₂_ne c c2 rest (fun hc => h hc.1)

/-- `lastGtIdx?` returns `none` exactly on lists without a `>`. -/
theorem lastGtIdx?_eq_none_iff (l : List Char) :
    lastGtIdx? l = none ↔ '>' ∉ l := by
  induction l with
  | nil => simp [lastGtIdx?]
  | cons c rest ih =>
    simp only [lastGtIdx?]
    cases h : lastGtIdx? rest with
    | some k =>
      have hmem : '>' ∈ rest := by
        by_contra hr
        exact Option.noConfusion (h ▸ ih.mpr hr)
      simp [List.mem_cons, hmem]
    | none =>
      rw [h] at ih
      have hrest : '>' ∉ rest := ih.mp rfl
      by_cases hc : c = '>'
      · simp [hc, hrest]
      · simp [hc, hrest]
        exact fun hg => hc hg.symm

/-- A `some` answer from `lastGtIdx?` is a position inside the list. -/
theorem lastGtIdx?_lt_length (l : List Char) (k : ℕ)
    (h : lastGtIdx? l = some k) : k < l.length := by
  induction l generalizing k with
  | nil => simp [lastGtIdx?] at h
  | cons c rest ih =>
    simp only [lastGtIdx?] at h
    cases h' : lastGtIdx? rest with
    | some k' =>
      rw [h'] at h
      cases h
      simpa using Nat.succ_lt_succ (ih k' h')
    | none =>
      rw [h'] at h
      by_cases hc : c = '>'
      · simp [hc] at h
        simp only [List.length_cons]
        omega
      · simp [hc] at h

/-- Nothing after the last `>` is a `>`. -/
theorem not_gt_of_drop_lastGtIdx? (l : List Char) (k : ℕ)
    (h : lastGtIdx? l = some k) : '>' ∉ l.drop (k + 1) := by
  induction l generalizing k with
  | nil => simp [lastGtIdx?] at h
  | cons c rest ih =>
    simp only [lastGtIdx?] at h
    cases h' : lastGtIdx? rest with
    | some k' =>
      rw [h'] at h
      cases h
      simpa using ih k' h'
    | none =>
      rw [h'] at h
      by_cases hc : c = '>'
      · simp [hc] at h
        subst h
        simpa using (lastGtIdx?_eq_none_iff rest).mp h'
      · simp [hc] at h

/-- A list without a newline is its own newline-free prefix, and appending
a newline-led tail does not change that prefix. -/
theorem takeWhile_no_newline (rest : List Char) (h : '\n' ∉ rest) :
    rest.takeWhile (fun c => c != '\n') = rest := by
  induction rest with
  | nil => rfl
  | cons c l ih =>
    have hc : c ≠ '\n' := fun hc => h (hc ▸ List.mem_cons_self c l)
    have hl : '\n' ∉ l := fun hm => h (List.mem_cons_of_mem c hm)
    simp [List.takeWhile_cons, hc, ih hl]

/-- The newline-free lookahead of `rest ++ '\n' :: b` is just `rest`. -/
theorem takeWhile_no_newline_append (rest b : List Char) (h : '\n' ∉ rest) :
    (rest ++ '\n' :: b).takeWhile (fun c => c != '\n') = rest := by
  induction rest with
  | nil => simp [List.takeWhile_cons]
  | cons c l ih =>
    have hc : c ≠ '\n' := fun hc => h (hc ▸ List.mem_cons_self c l)
    have hl : '\n' ∉ l := fun hm => h (List.mem_cons_of_mem c hm)
    simp [List.takeWhile_cons, hc, ih hl]

/-- A list without any `>` passes through the scanner unchanged: no match
can ever complete. -/
theorem subAux_of_not_gt : ∀ (n : ℕ) (cs : List Char), cs.length ≤ n →
    '>' ∉ cs → subAux cs = cs := by
  intro n
  induction n with
  | zero =>
    intro cs h _
    have hcs : cs = [] := List.eq_nil_of_length_eq_zero (Nat.le_zero.mp h)
    subst hcs
    rfl
  | succ m ih =>
    intro cs hlen hmem
    match cs with
    | [] => rfl
    | [c] => exact subAux_single c
    | c1 :: c2 :: rest =>
      have hrest : '>' ∉ rest := fun hm =>
        hmem (List.mem_cons_of_mem c1 (List.mem_cons_of_mem c2 hm))
      have htail : '>' ∉ c2 :: rest := fun hm =>
        hmem (List.mem_cons_of_mem c1 hm)
      have htw : '>' ∉ rest.takeWhile (fun c => c != '\n') := fun hm =>
        hrest ((List.takeWhile_sublist _).mem hm)
      have hnone : lastGtIdx? (rest.takeWhile (fun c => c != '\n')) = none :=
        (lastGtIdx?_eq_none_iff _).mpr htw
      by_cases hm : c1 = '<' ∧ c2 = '@'
      · obtain ⟨h1, h2⟩ := hm
        subst h1; subst h2
        rw [subAux_mention_none rest hnone]
        rw [ih ('@' :: rest) (by simp at hlen ⊢; omega) htail]
      · rw [subAux_cons₂_ne c1 c2 rest hm]
        rw [ih (c2 :: rest) (by simp at hlen ⊢; omega) htail]

/-- Wrapper for `subAux_of_not_gt` with the fuel instantiated. -/
theorem subAux_id_of_not_gt (cs : List Char) (h : '>' ∉ cs) : subAux cs = cs :=
  subAux_of_not_gt cs.length cs (Nat.le_refl _) h

/-- A newline is always emitted unchanged. -/
theorem subAux_newline_cons (b : List Char) :
    subAux ('\n' :: b) = '\n' :: subAux b :=
  subAux_cons_ne_lt '\n' b (by decide)

/-- Matches of `<@.*>` never span a newline: the scanner distributes over a
newline separator. -/
theorem subAux_append_newline : ∀ (n : ℕ) (a b : List Char), a.length ≤ n →
    '\n' ∉ a → subAux (a ++ '\n' :: b) = subAux a ++ '\n' :: subAux b := by
  intro n
  induction n with
  | zero =>
    intro a b hlen _
    have ha : a = [] := List.eq_nil_of_length_eq_zero (Nat.le_zero.mp hlen)
    subst ha
    simpa using subAux_newline_cons b
  | succ m ih =>
    intro a b hlen hnl
    match a with
    | [] => simpa using subAux_newline_cons b
    | [c] =>
      show subAux (c :: '\n' :: b) = subAux [c] ++ '\n' :: subAux b
      rw [subAux_cons₂_ne c '\n' b (fun hc => by
        have := hc.2
        simp at this)]
      rw [subAux_newline_cons b, subAux_single]
      rfl
    | c1 :: c2 :: rest =>
      have hnr : '\n' ∉ rest := fun hm =>
        hnl (List.mem_cons_of_mem c1 (List.mem_cons_of_mem c2 hm))
      have hntail : '\n' ∉ c2 :: rest := fun hm =>
        hnl (List.mem_cons_of_mem c1 hm)
      simp only [List.length_cons] at hlen
      by_cases hm : c1 = '<' ∧ c2 = '@'
      · obtain ⟨h1, h2⟩ := hm
        subst h1; subst h2
        have htw : (rest ++ '\n' :: b).takeWhile (fun c => c != '\n') = rest :=
          takeWhile_no_newline_append rest b hnr
        have htw' : rest.takeWhile (fun c => c != '\n') = rest :=
          takeWhile_no_newline rest hnr
        cases hg : lastGtIdx? rest with
        | some k =>
          have hk : k < rest.length := lastGtIdx?_lt_length rest k hg
          have hL : subAux (('<' :: '@' :: rest) ++ '\n' :: b) =
              subAux ((rest ++ '\n' :: b).drop (k + 1)) := by
            show subAux ('<' :: '@' :: (rest ++ '\n' :: b)) = _
            exact subAux_mention_some (rest ++ '\n' :: b) k (by rw [htw, hg])
          rw [hL, List.drop_append_of_le_length (by omega)]
          rw [ih (rest.drop (k + 1)) b
            (by simp [List.length_drop]; omega)
            (fun hmem => hnr (List.mem_of_mem_drop hmem))]
          rw [subAux_mention_some rest k (by rw [htw', hg])]
        | none =>
          have hL : subAux (('<' :: '@' :: rest) ++ '\n' :: b) =
              '<' :: subAux (('@' :: rest) ++ '\n' :: b) := by
            show subAux ('<' :: '@' :: (rest ++ '\n' :: b)) = _
            exact subAux_mention_none (rest ++ '\n' :: b) (by rw [htw, hg])
          rw [hL, ih ('@' :: rest) b (by simp; omega) hntail]
          rw [subAux_mention_none rest (by rw [htw', hg])]
          rfl
      · show subAux (c1 :: c2 :: (rest ++ '\n' :: b)) = _
        rw [subAux_cons₂_ne c1 c2 (rest ++ '\n' :: b) hm]
        have hih := ih (c2 :: rest) b (by simp; omega) hntail
        rw [List.cons_append] at hih
        rw [hih, subAux_cons₂_ne c1 c2 rest hm]
        rfl

/-- `startsMention` on a two-or-more element list. -/
theorem startsMention_cons₂ (c1 c2 : Char) (rest : List Char) :
    startsMention (c1 :: c2 :: rest) = true ↔ c1 = '<' ∧ c2 = '@' := by
  simp [startsMention]

/-- `lineStrip` commutes with prepending a character that does not start a
mention. -/
theorem lineStrip_cons_ne (c1 : Char) (cs : List Char)
    (h : ¬startsMention (c1 :: cs) = true) :
    lineStrip (c1 :: cs) = c1 :: lineStrip cs := by
  have hf : firstMentionIdx? (c1 :: cs) =
      (firstMentionIdx? cs).map (· + 1) := by
    simp only [firstMentionIdx?, if_neg h]
  cases hfc : firstMentionIdx? cs with
  | none =>
    simp only [lineStrip, hf, hfc, Option.map_none']
  | some i =>
    cases hgc : lastGtIdx? cs with
    | some j =>
      have hgt : lastGtIdx? (c1 :: cs) = some (j + 1) := by
        simp only [lastGtIdx?, hgc]
      simp only [lineStrip, hf, hfc, hgc, Option.map_some', hgt]
      by_cases hcond : i + 2 ≤ j
      · rw [if_pos (by omega : i + 1 + 2 ≤ j + 1), if_pos hcond]
        rw [List.take_succ_cons, List.drop_succ_cons]
        rfl
      · rw [if_neg (by omega : ¬i + 1 + 2 ≤ j + 1), if_neg hcond]
    | none =>
      by_cases hc1 : c1 = '>'
      · have hgt : lastGtIdx? (c1 :: cs) = some 0 := by
          simp only [lastGtIdx?, hgc, if_pos hc1]
        simp only [lineStrip, hf, hfc, hgc, Option.map_some', hgt]
        rw [if_neg (by omega : ¬i + 1 + 2 ≤ 0)]
      · have hgt : lastGtIdx? (c1 :: cs) = none := by
          simp only [lastGtIdx?, hgc, if_neg hc1]
        simp only [lineStrip, hf, hfc, hgc, Option.map_some', hgt]

/-- On a newline-free line the scanner computes exactly the closed form
`lineStrip`: remove from the first `<@` through the last `>` when a match
exists, else leave the line unchanged. -/
theorem subAux_line : ∀ (n : ℕ) (a : List Char), a.length ≤ n →
    '\n' ∉ a → subAux a = lineStrip a := by
  intro n
  induction n with
  | zero =>
    intro a hlen _
    have ha : a = [] := List.eq_nil_of_length_eq_zero (Nat.le_zero.mp hlen)
    subst ha
    rfl
  | succ m ih =>
    intro a hlen hnl
    match a with
    | [] => rfl
    | [c] =>
      rw [subAux_single]
      have : startsMention [c] = false := rfl
      simp [lineStrip, firstMentionIdx?, this]
    | c1 :: c2 :: rest =>
      have hnr : '\n' ∉ rest := fun hm =>
        hnl (List.mem_cons_of_mem c1 (List.mem_cons_of_mem c2 hm))
      have hntail : '\n' ∉ c2 :: rest := fun hm =>
        hnl (List.mem_cons_of_mem c1 hm)
      have htw' : rest.takeWhile (fun c => c != '\n') = rest :=
        takeWhile_no_newline rest hnr
      simp only [List.length_cons] at hlen
      by_cases hm : c1 = '<' ∧ c2 = '@'
      · obtain ⟨h1, h2⟩ := hm
        subst h1; subst h2
        have hfm : firstMentionIdx? ('<' :: '@' :: rest) = some 0 := by
          simp [firstMentionIdx?, startsMention]
        cases hg : lastGtIdx? rest with
        | some k =>
          rw [subAux_mention_some rest k (by rw [htw', hg])]
          rw [subAux_id_of_not_gt _ (not_gt_of_drop_lastGtIdx? rest k hg)]
          have hgt : lastGtIdx? ('<' :: '@' :: rest) = some (k + 2) := by
            simp only [lastGtIdx?, hg]
          simp only [lineStrip, hfm, hgt, if_pos (by omega : 0 + 2 ≤ k + 2)]
          rw [List.take_zero, List.drop_succ_cons, List.drop_succ_cons]
          rfl
        | none =>
          have hnogt : '>' ∉ rest := (lastGtIdx?_eq_none_iff rest).mp hg
          rw [subAux_mention_none rest (by rw [htw', hg])]
          rw [subAux_id_of_not_gt ('@' :: rest) (by
            intro hmem
            rcases List.mem_cons.mp hmem with h | h
            · exact absurd h (by decide)
            · exact hnogt h)]
          have hgt : lastGtIdx? ('<' :: '@' :: rest) = none := by
            simp only [lastGtIdx?, hg]
            rfl
          simp only [lineStrip, hfm, hgt]
      · rw [subAux_cons₂_ne c1 c2 rest hm]
        rw [ih (c2 :: rest) (by simp; omega) hntail]
        rw [lineStrip_cons_ne c1 (c2 :: rest) (by
          intro hs
          exact hm ((startsMention_cons₂ c1 c2 rest).mp hs))]

/-- `on_llm_new_token` always appends the token to the accumulated text,
whatever the interval gate decides and whether or not the edit call fails. -/
theorem onToken_message (st : HandlerState) (a : TokenArrival) :
    (onToken st a).1.message = st.message ++ a.tok := by
  unfold onToken
  split
  · split <;> rfl
  · rfl

/-- A `chat_update` attempt is made by `on_llm_new_token` exactly when the
elapsed time since `last_send_time` strictly exceeds the interval. -/
theorem onToken_attempt_iff (st : HandlerState) (a : TokenArrival) :
    (onToken st a).2 ≠ none ↔ a.now - st.lastSendTime > st.interval := by
  unfold onToken
  by_cases h : a.now - st.lastSendTime > st.interval
  · rw [if_pos h]
    cases hok : a.ok <;> simp [h]
  · rw [if_neg h]
    simp [h]

/-- When the gate opens, the attempted text is the accumulated text (token
already appended) followed by the in-progress marker. -/
theorem onToken_attempt_eq (st : HandlerState) (a : TokenArrival)
    (h : a.now - st.lastSendTime > st.interval) :
    (onToken st a).2 =
      some (Ev.attempt (st.message ++ a.tok ++ typingMarker) a.ok) := by
  unfold onToken
  rw [if_pos h]
  cases hok : a.ok <;> simp [hok]

/-- When the gate stays closed, no `chat_update` attempt happens. -/
theorem onToken_no_attempt (st : HandlerState) (a : TokenArrival)
    (h : ¬a.now - st.lastSendTime > st.interval) :
    (onToken st a).2 = none := by
  unfold onToken
  rw [if_neg h]

/-- After a successful gated publish: `last_send_time` becomes `now`,
`update_count` is incremented, and the interval doubles exactly when the
incremented count over ten exceeds the current interval. -/
theorem onToken_publish_state (st : HandlerState) (a : TokenArrival)
    (h : a.now - st.lastSendTime > st.interval) (hok : a.ok = true) :
    (onToken st a).1.lastSendTime = a.now ∧
    (onToken st a).1.updateCount = st.updateCount + 1 ∧
    (onToken st a).1.interval =
      (if ((st.updateCount + 1 : ℕ) : ℚ) / 10 > st.interval then
        st.interval * 2
      else st.interval) := by
  unfold onToken
  rw [if_pos h, hok]
  exact ⟨rfl, rfl, rfl⟩

/-- If the gate stays closed, or the edit call raises before the state
updates run, then `last_send_time`, `update_count` and the interval are all
left untouched. -/
theorem onToken_no_publish_state (st : HandlerState) (a : TokenArrival)
    (h : ¬a.now - st.lastSendTime > st.interval ∨ a.ok = false) :
    (onToken st a).1.lastSendTime = st.lastSendTime ∧
    (onToken st a).1.updateCount = st.updateCount ∧
    (onToken st a).1.interval = st.interval := by
  unfold onToken
  rcases h with h | h
  · rw [if_neg h]
    exact ⟨rfl, rfl, rfl⟩
  · by_cases ht : a.now - st.lastSendTime > st.interval
    · rw [if_pos ht, h]
      exact ⟨rfl, rfl, rfl⟩
    · rw [if_neg ht]
      exact ⟨rfl, rfl, rfl⟩

/-- A single `on_llm_new_token` step never decreases a positive interval. -/
theorem onToken_interval_mono (st : HandlerState) (a : TokenArrival)
    (h : 0 < st.interval) :
    st.interval ≤ (onToken st a).1.interval ∧ 0 < (onToken st a).1.interval := by
  by_cases ht : a.now - st.lastSendTime > st.interval
  · cases hok : a.ok
    · rw [(onToken_no_publish_state st a (Or.inr hok)).2.2]
      exact ⟨le_refl _, h⟩
    · rw [(onToken_publish_state st a ht hok).2.2]
      by_cases hd : ((st.updateCount + 1 : ℕ) : ℚ) / 10 > st.interval
      · rw [if_pos hd]
        constructor <;> linarith
      · rw [if_neg hd]
        exact ⟨le_refl _, h⟩
  · rw [(onToken_no_publish_state st a (Or.inl ht)).2.2]
    exact ⟨le_refl _, h⟩

/-- After consuming a trace, the accumulated text is the starting text
followed by the concatenation of all the trace's tokens, in order —
regardless of the gate decisions and of any failing edit calls. -/
theorem runSession_message : ∀ (trace : List TokenArrival) (st : HandlerState),
    (runSession st trace).1.message = st.message ++ concatTokens trace := by
  intro trace
  induction trace with
  | nil =>
    intro st
    simp [runSession, concatTokens, String.append_empty]
  | cons a rest ih =>
    intro st
    show (runSession (onToken st a).1 rest).1.message = _
    rw [ih (onToken st a).1, onToken_message]
    show _ = st.message ++ (a.tok ++ concatTokens rest)
    rw [String.append_assoc]

/-- `on_llm_new_token` never performs the terminal publish: every event it
emits is an interval-gated attempt. -/
theorem runSession_no_final : ∀ (trace : List TokenArrival) (st : HandlerState),
    ∀ ev ∈ (runSession st trace).2, isFinalEv ev = false := by
  intro trace
  induction trace with
  | nil =>
    intro st ev h
    simp [runSession] at h
  | cons a rest ih =>
    intro st ev h
    show isFinalEv ev = false
    have h' : ev ∈ (onToken st a).2.toList ++ (runSession (onToken st a).1 rest).2 := h
    rcases List.mem_append.mp h' with hl | hr
    · by_cases ht : a.now - st.lastSendTime > st.interval
      · rw [onToken_attempt_eq st a ht] at hl
        simp only [Option.toList_some, List.mem_singleton] at hl
        subst hl
        rfl
      · rw [onToken_no_attempt st a ht] at hl
        simp at hl
    · exact ih (onToken st a).1 ev hr

/-- Running a session over a concatenated trace threads the state through
the first part and then the second. -/
theorem runSession_append_state : ∀ (l₁ l₂ : List TokenArrival) (st : HandlerState),
    (runSession st (l₁ ++ l₂)).1 = (runSession (runSession st l₁).1 l₂).1 := by
  intro l₁
  induction l₁ with
  | nil => intro l₂ st; rfl
  | cons a rest ih =>
    intro l₂ st
    show (runSession (onToken st a).1 (rest ++ l₂)).1 = _
    rw [ih l₂ (onToken st a).1]
    rfl

/-- Along a whole session the interval never decreases and stays positive. -/
theorem runSession_interval_mono : ∀ (trace : List TokenArrival) (st : HandlerState),
    0 < st.interval →
    st.interval ≤ (runSession st trace).1.interval ∧
    0 < (runSession st trace).1.interval := by
  intro trace
  induction trace with
  | nil => intro st h; exact ⟨le_refl _, h⟩
  | cons a rest ih =>
    intro st h
    have h1 := onToken_interval_mono st a h
    have h2 := ih (onToken st a).1 h1.2
    exact ⟨le_trans h1.1 h2.1, h2.2⟩

/-- The interval-gated attempt texts of a session run are chained: each
carries the marker on an accumulated text that extends the previous one,
and every one of them extends the state's starting text. -/
theorem runSession_attempt_chain : ∀ (trace : List TokenArrival) (st : HandlerState),
    List.Chain' extendsMarker (attemptTexts (runSession st trace).2) ∧
    ∀ t ∈ attemptTexts (runSession st trace).2,
      ∃ c, t = (st.message ++ c) ++ typingMarker := by
  intro trace
  induction trace with
  | nil =>
    intro st
    constructor
    · simp [runSession, attemptTexts]
    · intro t ht
      simp [runSession, attemptTexts] at ht
  | cons a rest ih =>
    intro st
    have hmem : ∀ t ∈ attemptTexts (runSession (onToken st a).1 rest).2,
        ∃ c, t = (st.message ++ c) ++ typingMarker := by
      intro t ht
      obtain ⟨c, hc⟩ := (ih (onToken st a).1).2 t ht
      refine ⟨a.tok ++ c, ?_⟩
      rw [hc, onToken_message]
      simp [String.append_assoc]
    have hsplit : (runSession st (a :: rest)).2 =
        (onToken st a).2.toList ++ (runSession (onToken st a).1 rest).2 := rfl
    by_cases ht : a.now - st.lastSendTime > st.interval
    · rw [hsplit, onToken_attempt_eq st a ht]
      have hone : attemptTexts (Ev.attempt (st.message ++ a.tok ++ typingMarker) a.ok ::
          (runSession (onToken st a).1 rest).2) =
          (st.message ++ a.tok ++ typingMarker) ::
            attemptTexts (runSession (onToken st a).1 rest).2 := rfl
      show List.Chain' extendsMarker (attemptTexts (Ev.attempt _ a.ok ::
        (runSession (onToken st a).1 rest).2)) ∧ _
      rw [hone]
      constructor
      · rw [List.chain'_cons']
        constructor
        · intro y hy
          have hymem : y ∈ attemptTexts (runSession (onToken st a).1 rest).2 :=
            List.mem_of_mem_head? hy
          obtain ⟨c, hc⟩ := (ih (onToken st a).1).2 y hymem
          rw [onToken_message] at hc
          exact ⟨st.message ++ a.tok, c, rfl, by
            rw [hc, String.append_assoc, String.append_assoc]⟩
        · exact (ih (onToken st a).1).1
      · intro t htm
        rcases List.mem_cons.mp htm with h | h
        · exact ⟨a.tok, h⟩
        · exact hmem t h
    · rw [hsplit, onToken_no_attempt st a ht]
      show List.Chain' extendsMarker (attemptTexts ([] ++
        (runSession (onToken st a).1 rest).2)) ∧ _
      rw [List.nil_append]
      exact ⟨(ih (onToken st a).1).1, hmem⟩

/-- The session's event list is the gated attempts followed by exactly one
terminal publish carrying the full concatenation of the tokens. -/
theorem sessionEvents_eq (t0 : ℚ) (trace : List TokenArrival) :
    sessionEvents t0 trace =
      (runSession (initState t0) trace).2 ++ [Ev.final (concatTokens trace)] := by
  unfold sessionEvents onEnd
  rw [runSession_message]
  have h0 : (initState t0).message = "" := rfl
  rw [h0, String.empty_append]

/-- The terminal `on_llm_end` call contributes no interval-gated attempt. -/
theorem attemptTexts_sessionEvents (t0 : ℚ) (trace : List TokenArrival) :
    attemptTexts (sessionEvents t0 trace) =
      attemptTexts (runSession (initState t0) trace).2 := by
  unfold sessionEvents attemptTexts onEnd
  rw [List.filterMap_append]
  simp

/-- A list with no occurrence of `<@` passes through the scanner unchanged. -/
theorem subAux_id_of_no_mention : ∀ (n : ℕ) (cs : List Char), cs.length ≤ n →
    firstMentionIdx? cs = none → subAux cs = cs := by
  intro n
  induction n with
  | zero =>
    intro cs h _
    have hcs : cs = [] := List.eq_nil_of_length_eq_zero (Nat.le_zero.mp h)
    subst hcs
    rfl
  | succ m ih =>
    intro cs hlen hfm
    match cs with
    | [] => rfl
    | [c] => exact subAux_single c
    | c1 :: c2 :: rest =>
      have hne : ¬(c1 = '<' ∧ c2 = '@') := by
        intro hm
        have hs : startsMention (c1 :: c2 :: rest) = true :=
          (startsMention_cons₂ c1 c2 rest).mpr hm
        simp only [firstMentionIdx?, if_pos hs] at hfm
        exact Option.noConfusion hfm
      have htail : firstMentionIdx? (c2 :: rest) = none := by
        have hsm : ¬startsMention (c1 :: c2 :: rest) = true := fun hs =>
          hne ((startsMention_cons₂ c1 c2 rest).mp hs)
        simp only [firstMentionIdx?, if_neg hsm] at hfm
        exact Option.map_eq_none'.mp hfm
      rw [subAux_cons₂_ne c1 c2 rest hne,
        ih (c2 :: rest) (by simp at hlen ⊢; omega) htail]

/-- C1.  For every token sequence delivered to one streaming session,
including the empty one, the terminal publish performed by `on_llm_end`
happens exactly once (it is the unique final-kind event, and the last event
of the session), and it carries exactly the concatenation of all received
tokens in arrival order — in particular without the in-progress marker that
the interval-gated attempts append. -/
theorem C1_final_publish_exactly_once (t0 : ℚ) (trace : List TokenArrival) :
    (sessionEvents t0 trace).filter isFinalEv = [Ev.final (concatTokens trace)] ∧
    (sessionEvents t0 trace).getLast? = some (Ev.final (concatTokens trace)) := by
  constructor
  · rw [sessionEvents_eq, List.filter_append]
    have h1 : (runSession (initState t0) trace).2.filter isFinalEv = [] :=
      List.filter_eq_nil_iff.mpr (fun ev hev => by
        rw [runSession_no_final trace (initState t0) ev hev]
        simp)
    rw [h1]
    simp [isFinalEv]
  · rw [sessionEvents_eq, List.getLast?_concat]

/-- C3.  If an interval-gated edit call raises, stream consumption does not
abort: every token of the trace is still ingested and appended (the final
accumulated text is the full concatenation), and the terminal publish still
occurs, as the last event, with the full text. -/
theorem C3_edit_failure_keeps_ingesting (t0 : ℚ) (trace : List TokenArrival)
    (_hfail : ∃ a ∈ trace, a.ok = false) :
    (runSession (initState t0) trace).1.message = concatTokens trace ∧
    (sessionEvents t0 trace).getLast? = some (Ev.final (concatTokens trace)) := by
  constructor
  · rw [runSession_message]
    have h0 : (initState t0).message = "" := rfl
    rw [h0, String.empty_append]
  · rw [sessionEvents_eq, List.getLast?_concat]

/-- Witness for C3 on a concrete trace whose first edit call fails. -/
theorem C3_edit_failure_keeps_ingesting_witness :
    (∃ a ∈ [TokenArrival.mk "a" 5 false, TokenArrival.mk "b" 10 true],
      a.ok = false) ∧
    (runSession (initState 0)
      [TokenArrival.mk "a" 5 false, TokenArrival.mk "b" 10 true]).1.message =
      concatTokens [TokenArrival.mk "a" 5 false, TokenArrival.mk "b" 10 true] ∧
    (sessionEvents 0
      [TokenArrival.mk "a" 5 false, TokenArrival.mk "b" 10 true]).getLast? =
      some (Ev.final (concatTokens
        [TokenArrival.mk "a" 5 false, TokenArrival.mk "b" 10 true])) ∧
    concatTokens [TokenArrival.mk "a" 5 false, TokenArrival.mk "b" 10 true] =
      "ab" := by
  have hex : ∃ a ∈ [TokenArrival.mk "a" 5 false, TokenArrival.mk "b" 10 true],
      a.ok = false :=
    ⟨TokenArrival.mk "a" 5 false, by simp, rfl⟩
  have h := C3_edit_failure_keeps_ingesting 0
    [TokenArrival.mk "a" 5 false, TokenArrival.mk "b" 10 true] hex
  exact ⟨hex, h.1, h.2, rfl⟩

/-- C4 (code bug).  The claim says `last_publish_time` is initialised to the
session-start time, so that no publish can be triggered by time accrued
before the session was created.  In the source, `last_send_time` is a class
attribute evaluated once at module import, and `__init__` never resets it:
with the module imported at time 0 and a session created at time 100, the
very first token (arriving at 100, i.e. 0 time units into the session with
interval 1) already fires a gated publish.  Had the attribute held the
session-start time 100, as the claim requires, no publish would fire — the
third conjunct evaluates that intended behaviour. -/
theorem C4_first_publish_uses_import_time :
    (onToken (initState 0) (TokenArrival.mk "hi" 100 true)).2 =
      some (Ev.attempt ("hi" ++ typingMarker) true) ∧
    (initState 0).lastSendTime = 0 ∧
    (onToken (initState 100) (TokenArrival.mk "hi" 100 true)).2 = none := by
  refine ⟨?_, rfl, ?_⟩
  · have h := onToken_attempt_eq (initState 0) (TokenArrival.mk "hi" 100 true)
      (by norm_num [initState, CHAT_UPDATE_INTERVAL_SEC])
    exact h
  · exact onToken_no_attempt _ _
      (by norm_num [initState, CHAT_UPDATE_INTERVAL_SEC])

/-- C5.  After each successful interval-gated publish the controller first
increments `update_count` and then doubles the interval exactly when the
incremented `update_count / 10` exceeds the current interval; at no other
point — gate closed, edit call failed, or during `on_llm_end` — does the
interval or counter change. -/
theorem C5_adaptive_backoff (st : HandlerState) (a : TokenArrival) :
    (a.now - st.lastSendTime > st.interval → a.ok = true →
      (onToken st a).1.updateCount = st.updateCount + 1 ∧
      (onToken st a).1.interval =
        (if ((st.updateCount + 1 : ℕ) : ℚ) / 10 > st.interval then
          st.interval * 2
        else st.interval)) ∧
    (¬a.now - st.lastSendTime > st.interval ∨ a.ok = false →
      (onToken st a).1.interval = st.interval ∧
      (onToken st a).1.updateCount = st.updateCount) ∧
    (onEnd st).1.interval = st.interval := by
  refine ⟨fun ht hok => ?_, fun h => ?_, rfl⟩
  · have h := onToken_publish_state st a ht hok
    exact ⟨h.2.1, h.2.2⟩
  · have h2 := onToken_no_publish_state st a h
    exact ⟨h2.2.2, h2.2.1⟩

/-- Witness for C5: the 11th publish with interval 1 crosses `11/10 > 1`
and doubles the interval to 2. -/
theorem C5_adaptive_backoff_witness :
    (onToken (HandlerState.mk "x" 0 1 10) (TokenArrival.mk "y" 5 true)).1.updateCount
      = 11 ∧
    (onToken (HandlerState.mk "x" 0 1 10) (TokenArrival.mk "y" 5 true)).1.interval
      = 2 := by
  have h := (C5_adaptive_backoff (HandlerState.mk "x" 0 1 10)
    (TokenArrival.mk "y" 5 true)).1 (by norm_num) rfl
  refine ⟨h.1, ?_⟩
  rw [h.2, if_pos (by norm_num)]
  norm_num

/-- C6.  Over any session started by the constructor, the interval is
monotonically non-decreasing: at any later point of the same session it is
at least its value at any earlier point, it never drops below the base
interval, and `on_llm_end` does not change it either. -/
theorem C6_interval_monotone (t0 : ℚ) (pre post : List TokenArrival) :
    (runSession (initState t0) pre).1.interval ≤
      (runSession (initState t0) (pre ++ post)).1.interval ∧
    CHAT_UPDATE_INTERVAL_SEC ≤ (runSession (initState t0) pre).1.interval ∧
    (onEnd (runSession (initState t0) (pre ++ post)).1).1.interval =
      (runSession (initState t0) (pre ++ post)).1.interval := by
  have h0 : (0 : ℚ) < (initState t0).interval := by
    show (0 : ℚ) < CHAT_UPDATE_INTERVAL_SEC
    norm_num [CHAT_UPDATE_INTERVAL_SEC]
  have hpre := runSession_interval_mono pre (initState t0) h0
  refine ⟨?_, hpre.1, rfl⟩
  rw [runSession_append_state]
  exact (runSession_interval_mono post _ hpre.2).1

/-- C7.  The Conversation Key used for the history load and append is the
event's `thread_ts` when that field is present, and the event's own `ts`
otherwise. -/
theorem C7_conversation_key (env : Env) (text ts root channel : String) :
    (handleMention env (SlackEvent.mk text ts (some root) channel)).key = root ∧
    (handleMention env (SlackEvent.mk text ts none channel)).key = ts ∧
    ∀ e : SlackEvent, (handleMention env e).key = convKey e :=
  ⟨rfl, rfl, fun _ => rfl⟩

/-- C8.  A request-mode delivery whose headers contain the retry-count
header is acknowledged immediately with 200 and performs zero side effects;
any processing happens only through the delegated dispatch, in the other
branch. -/
theorem C8_retry_short_circuit (req : LambdaRequest)
    (dispatch : ℕ × List Effect) :
    ((∃ v, ("x-slack-retry-num", v) ∈ req.headers) →
      handler req dispatch = (200, [])) ∧
    (¬(∃ v, ("x-slack-retry-num", v) ∈ req.headers) →
      handler req dispatch = dispatch) := by
  constructor
  · rintro ⟨v, hv⟩
    unfold handler
    rw [if_pos]
    exact List.any_eq_true.mpr ⟨("x-slack-retry-num", v), hv, by simp⟩
  · intro h
    unfold handler
    rw [if_neg]
    intro hany
    obtain ⟨x, hx, hp⟩ := List.any_eq_true.mp hany
    obtain ⟨k', v'⟩ := x
    have hk : k' = "x-slack-retry-num" := by simpa using hp
    subst hk
    exact h ⟨v', hx⟩

/-- Witness for C8: a retried delivery is acknowledged with 200 and an empty
effect list even though the dispatch would have produced effects. -/
theorem C8_retry_short_circuit_witness :
    handler
      (LambdaRequest.mk
        [("x-slack-retry-num", "1"), ("content-type", "application/json")])
      (500, [Effect.generate]) = (200, []) :=
  (C8_retry_short_circuit
    (LambdaRequest.mk
      [("x-slack-retry-num", "1"), ("content-type", "application/json")])
    (500, [Effect.generate])).1 ⟨"1", by simp⟩

/-- C9.  Each `on_llm_new_token` call first appends the token; an edit
attempt is made iff the elapsed time since `last_send_time` exceeds the
interval; a successful attempt carries the accumulated text plus the
in-progress marker and moves `last_send_time` to now; and across a session
the successive attempted texts, markers stripped, extend one another. -/
theorem C9_gated_publish_growing_text (st : HandlerState) (a : TokenArrival)
    (t0 : ℚ) (trace : List TokenArrival) :
    (onToken st a).1.message = st.message ++ a.tok ∧
    ((onToken st a).2 ≠ none ↔ a.now - st.lastSendTime > st.interval) ∧
    (a.now - st.lastSendTime > st.interval →
      (onToken st a).2 =
        some (Ev.attempt (st.message ++ a.tok ++ typingMarker) a.ok) ∧
      (a.ok = true → (onToken st a).1.lastSendTime = a.now)) ∧
    List.Chain' extendsMarker (attemptTexts (sessionEvents t0 trace)) := by
  refine ⟨onToken_message st a, onToken_attempt_iff st a,
    fun ht => ⟨onToken_attempt_eq st a ht,
      fun hok => (onToken_publish_state st a ht hok).1⟩, ?_⟩
  rw [attemptTexts_sessionEvents]
  exact (runSession_attempt_chain trace (initState t0)).1

/-- Witness for C9 at a concrete crossing of the gate. -/
theorem C9_gated_publish_growing_text_witness :
    (onToken (HandlerState.mk "He" 0 1 0) (TokenArrival.mk "llo" 5 true)).2 =
      some (Ev.attempt ("He" ++ "llo" ++ typingMarker) true) ∧
    (onToken (HandlerState.mk "He" 0 1 0)
      (TokenArrival.mk "llo" 5 true)).1.lastSendTime = 5 := by
  have h := (C9_gated_publish_growing_text (HandlerState.mk "He" 0 1 0)
    (TokenArrival.mk "llo" 5 true) 0 []).2.2.1 (by norm_num)
  exact ⟨h.1, h.2 rfl⟩

/-- C2 (code bug).  The claim says the assistant entry appended to the
transcript is the generated answer that was streamed and terminally
published.  The source composes `conversational_chain = qa_chain |
rephrase_chain`, so the value passed to `add_ai_message` is the
history-aware-retriever stage applied to the qa chain's output — not the
streamed answer itself.  Concretely: the streamed tokens are `["A"]`, the
terminal publish carries `"A"`, but the appended assistant entry is the
rephrase stage's output on `"A"`, which differs from `"A"`. -/
theorem C2_history_append_divergence :
    (handleMention
      (Env.mk 0 "9.9" [TokenArrival.mk "A" 100 true]
        (fun s => "[docs for: " ++ s ++ "]"))
      (SlackEvent.mk "<@U1> hi" "1.0" none "C1")).events.getLast? =
      some (Ev.final "A") ∧
    (handleMention
      (Env.mk 0 "9.9" [TokenArrival.mk "A" 100 true]
        (fun s => "[docs for: " ++ s ++ "]"))
      (SlackEvent.mk "<@U1> hi" "1.0" none "C1")).appended =
      [("user", " hi"), ("ai", "[docs for: A]")] ∧
    ("[docs for: A]" : String) ≠ "A" := by
  refine ⟨?_, by decide, by decide⟩
  show (sessionEvents 0 [TokenArrival.mk "A" 100 true]).getLast? =
    some (Ev.final "A")
  rw [sessionEvents_eq, List.getLast?_concat]
  rfl

/-- C10 counterexample.  The claim describes mention stripping as removing
one single maximal substring from the first `<@` of the whole text to the
last `>`.  On the two-line text `"<@a>x\n<@b>y"` the code's `re.sub`
removes one match per line, producing `"x\ny"`, whereas the claimed single
removal would produce `"y"`. -/
theorem C10_single_removal_counterexample :
    stripMentions "<@a>x\n<@b>y" = "x\ny" ∧
    claimStrip "<@a>x\n<@b>y" = "y" ∧
    ("x\ny" : String) ≠ "y" :=
  ⟨by decide, by decide, by decide⟩

/-- C10 as amended.  The query passed to the chains and appended as the user
message is `re.sub("<@.*>", "", text)`, whose matches never span a newline:
the text decomposes line by line, on each newline-free line the single
maximal (greedy) substring from the first `<@` to the last `>` (at least two
positions later) is removed and a line without such a span is unchanged, and
text with no `<@` at all is left unchanged. -/
theorem C10_per_line_strip (env : Env) (e : SlackEvent) :
    (handleMention env e).query = stripMentions e.text ∧
    (handleMention env e).appended.head? =
      some ("user", stripMentions e.text) ∧
    (∀ (a b : List Char), '\n' ∉ a →
      subAux (a ++ '\n' :: b) = subAux a ++ '\n' :: subAux b) ∧
    (∀ cs : List Char, '\n' ∉ cs → subAux cs = lineStrip cs) ∧
    (∀ cs : List Char, firstMentionIdx? cs = none → subAux cs = cs) := by
  refine ⟨rfl, rfl, ?_, ?_, ?_⟩
  · intro a b ha
    exact subAux_append_newline a.length a b (Nat.le_refl _) ha
  · intro cs h
    exact subAux_line cs.length cs (Nat.le_refl _) h
  · intro cs h
    exact subAux_id_of_no_mention cs.length cs (Nat.le_refl _) h

/-- Witness for the amended C10 on concrete inputs: a two-line text splits
at the newline, a single line is stripped to its closed form, and a text
with no `<@` is unchanged. -/
theorem C10_per_line_strip_witness :
    subAux ("a<@b>c".data ++ '\n' :: "d<@e>f".data) =
      subAux "a<@b>c".data ++ '\n' :: subAux "d<@e>f".data ∧
    subAux "hi <@U1> foo <@U2> bar".data =
      lineStrip "hi <@U1> foo <@U2> bar".data ∧
    subAux "no mention here".data = "no mention here".data ∧
    stripMentions "hi <@U1> foo <@U2> bar" = "hi  bar" := by
  have h := C10_per_line_strip (Env.mk 0 "" [] id)
    (SlackEvent.mk "x" "1" none "c")
  exact ⟨h.2.2.1 "a<@b>c".data "d<@e>f".data (by decide),
    h.2.2.2.1 "hi <@U1> foo <@U2> bar".data (by decide),
    h.2.2.2.2 "no mention here".data (by decide),
    by decide⟩
